import Mathlib

/-! Formal verification of the Document-Injection RAG pipeline.

The Python sources are shallowly embedded: Python strings become lists of
characters, the stateful services become explicit state passing, and the
collaborator calls that can raise become Except-valued parameters.  The
development covers the chunking strategies (app/utils/chunking.py), the
mock vector index (app/utils/mock_services.py), the conversation store
(app/utils/redis_memory.py) and the chat orchestration
(app/services/rag_service.py). -/

set_option maxRecDepth 8192

namespace DocInj

/-- Python strings are modelled as lists of characters. -/
abbrev PyStr := List Char

/-- Decidable equality for Except values, used to evaluate concrete chat
turn outcomes. -/
instance {ε α : Type} [DecidableEq ε] [DecidableEq α] :
    DecidableEq (Except ε α) := fun a b =>
  match a, b with
  | Except.error e, Except.error f =>
    if h : e = f then isTrue (by rw [h])
    else isFalse (by intro hc; injection hc with h2; exact h h2)
  | Except.error _, Except.ok _ => isFalse (by intro hc; exact Except.noConfusion hc)
  | Except.ok _, Except.error _ => isFalse (by intro hc; exact Except.noConfusion hc)
  | Except.ok x, Except.ok y =>
    if h : x = y then isTrue (by rw [h])
    else isFalse (by intro hc; injection hc with h2; exact h h2)

/-- ASCII whitespace characters: the regex whitespace class and the
characters removed by Python str.strip with no argument. -/
def pyIsSpace (c : Char) : Bool :=
  c = ' ' || c = '\t' || c = '\n' || c = '\r' || c = '\x0b' || c = '\x0c'

/-- Helper for whitespace collapsing; the flag records whether the previous
character was whitespace, so that a whole run emits a single space. -/
def collapseWsAux (afterSpace : Bool) : PyStr → PyStr
  | [] => []
  | c :: rest =>
    if pyIsSpace c then
      if afterSpace then collapseWsAux true rest
      else ' ' :: collapseWsAux true rest
    else c :: collapseWsAux false rest

/-- Embedding of re.sub applied to a whitespace-run pattern with a single
space replacement, as used by the private clean helpers of both chunking
strategies. -/
def collapseWs (s : PyStr) : PyStr := collapseWsAux false s

/-- Python str.strip with no argument: remove leading and trailing
whitespace. -/
def pyStrip (s : PyStr) : PyStr :=
  ((s.dropWhile pyIsSpace).reverse.dropWhile pyIsSpace).reverse

/-- Embedding of the private clean-text helper shared by both chunking
strategies: collapse whitespace runs to single spaces, then strip. -/
def cleanText (s : PyStr) : PyStr := pyStrip (collapseWs s)

/-- Normalisation of a Python slice index for a sequence of length len. -/
def pyIdx (len : Nat) (i : Int) : Nat :=
  if i < 0 then ((len : Int) + i).toNat else min i.toNat len

/-- Python slice l from index a up to (excluding) index b. -/
def pySlice {α : Type} (l : List α) (a b : Int) : List α :=
  (l.take (pyIdx l.length b)).drop (pyIdx l.length a)

/-- Python slice l from index a to the end. -/
def pyDropFrom {α : Type} (l : List α) (a : Int) : List α :=
  l.drop (pyIdx l.length a)

/-- While loop of FixedSizeChunking.chunk_text: slice a window of length
size starting at start, keep its stripped form when non-empty, advance by
size minus overlap, and break after the first iteration when size is at
most overlap (the source comment says this prevents an infinite loop).
The loop is realised by structural recursion on a fuel counter; the fuel
is irrelevant for any execution it covers (theorem fixedLoopF_stable), and
the entry point passes enough of it: when the loop does not break, start
grows by at least one per iteration. -/
def fixedLoopF (size overlap : Int) (t : PyStr) :
    Nat → Int → List PyStr → List PyStr
  | 0, _, acc => acc
  | fuel + 1, start, acc =>
    if start < (t.length : Int) then
      let chunk := pySlice t start (start + size)
      let acc2 := if pyStrip chunk = [] then acc else acc ++ [pyStrip chunk]
      if size ≤ overlap then acc2
      else fixedLoopF size overlap t fuel (start + (size - overlap)) acc2
    else acc

/-- FixedSizeChunking.chunk_text: empty input yields no chunks, otherwise
the text is cleaned and cut by the window loop starting at zero. -/
def fixedChunkText (size overlap : Int) (text : PyStr) : List PyStr :=
  if text = [] then []
  else fixedLoopF size overlap (cleanText text) ((cleanText text).length + 1) 0 []

/-- Characters on which a sentence may end, the first character class of
the sentence-boundary regex of SemanticChunking. -/
def isSentPunct (c : Char) : Bool := c = '.' || c = '!' || c = '?'

/-- Uppercase ASCII letter, the lookahead character class of the
sentence-boundary regex. -/
def isUpperAZ (c : Char) : Bool := 'A' ≤ c && c ≤ 'Z'

/-- Scanner realising the sentence-splitting regex of SemanticChunking:
the text is cut at every maximal whitespace run that immediately follows
one of . ! ? and is immediately followed by an uppercase letter, and the
run itself is consumed.  curRev holds the current segment reversed; wsRev,
when present, holds the whitespace run (reversed) seen directly after a
punctuation-ending segment, still undecided between a split point and
ordinary characters: an uppercase letter resolves it into a split, any
other character folds the run back into the segment, and the end of input
folds it back as well because the lookahead then fails. -/
def sentScan (curRev : PyStr) (wsRev : Option PyStr) : PyStr → List PyStr
  | [] =>
    match wsRev with
    | none => [curRev.reverse]
    | some run => [(run ++ curRev).reverse]
  | c :: rest =>
    match wsRev with
    | none =>
      if pyIsSpace c then
        match curRev with
        | p :: _ =>
          if isSentPunct p then sentScan curRev (some [c]) rest
          else sentScan (c :: curRev) none rest
        | [] => sentScan (c :: curRev) none rest
      else sentScan (c :: curRev) none rest
    | some run =>
      if pyIsSpace c then sentScan curRev (some (c :: run)) rest
      else if isUpperAZ c then curRev.reverse :: sentScan [c] none rest
      else sentScan (c :: (run ++ curRev)) none rest

/-- The private split-sentences helper: regex split, then strip every piece
and keep the non-empty ones. -/
def splitSentences (s : PyStr) : List PyStr :=
  ((sentScan [] none s).map pyStrip).filter (fun p => p ≠ [])

/-- The private split-paragraphs helper.  Its argument here is always the
cleaned text, in which every whitespace character has been replaced by a
single space (theorem cleanText_no_newline), so the blank-line separator
pattern of the regex, which requires two newline characters, never occurs
and the split returns the single whole segment; that segment is then
stripped and kept when non-empty, as in the list comprehension of the
source. -/
def splitParagraphs (s : PyStr) : List PyStr :=
  if pyStrip s = [] then [] else [pyStrip s]

/-- Sentence sequence over which SemanticChunking.chunk_text iterates: all
sentences of all paragraphs in order.  The running buffer survives
paragraph boundaries in the source, so the two nested loops are a single
fold over this flattened list. -/
def sentencesOf (text : PyStr) : List PyStr :=
  ((splitParagraphs (cleanText text)).map splitSentences).flatten

/-- Loop body of SemanticChunking.chunk_text for one sentence; the state
is the pair of the chunks emitted so far and the running buffer. -/
def semStep (minC maxC target : Nat) (state : List PyStr × PyStr) (s : PyStr) :
    List PyStr × PyStr :=
  let potential := if state.2 ≠ [] then state.2 ++ ' ' :: s else s
  if maxC < potential.length then
    if minC ≤ state.2.length then (state.1 ++ [pyStrip state.2], s)
    else (state.1 ++ [pyStrip potential], [])
  else if target ≤ potential.length then (state.1 ++ [pyStrip potential], [])
  else (state.1, potential)

/-- Final flush of SemanticChunking.chunk_text: append the stripped buffer
when it is non-empty. -/
def semFinal (state : List PyStr × PyStr) : List PyStr :=
  if pyStrip state.2 = [] then state.1 else state.1 ++ [pyStrip state.2]

/-- SemanticChunking.chunk_text with target size target; the minimum and
maximum bounds are target halved (floor) and target doubled, as set in the
constructor.  The constructor replaces a falsy size by the positive
default, so the target is modelled as a natural number. -/
def semanticChunkText (target : Nat) (text : PyStr) : List PyStr :=
  if text = [] then []
  else
    semFinal ((sentencesOf text).foldl (semStep (target / 2) (target * 2) target)
      ([], []))

/-- One stored passage of MockQdrantManager: chunk index within the store
call, text, and the embedding truncated by the mock to its first five
dimensions. -/
structure StoredVec where
  chunk_index : Nat
  text : PyStr
  embedding : List ℚ
deriving DecidableEq

/-- Search result entry of MockQdrantManager.search_similar. -/
structure Hit where
  text : PyStr
  document_id : String
  chunk_index : Nat
  score : ℚ
deriving DecidableEq

/-- State of MockQdrantManager: the vectors dictionary, an insertion-ordered
map from document id to its stored passages.  A Python dict holds at most
one entry per key; every state the operations below produce preserves
that. -/
abbrev Idx := List (String × List StoredVec)

/-- Membership test of a document id among the dictionary keys. -/
def idxHasKey (st : Idx) (d : String) : Bool := st.any (fun p => p.1 == d)

/-- Value stored for a document id, empty when the key is absent. -/
def idxGet (st : Idx) (d : String) : List StoredVec :=
  match st.find? (fun p => p.1 == d) with
  | some p => p.2
  | none => []

/-- Replacement of the value at a key, keeping dictionary order; the key is
appended when absent. -/
def idxSet : Idx → String → List StoredVec → Idx
  | [], d, v => [(d, v)]
  | p :: rest, d, v => if p.1 == d then (d, v) :: rest else p :: idxSet rest d v

/-- Entries built by the store_vectors loop: enumerate the zip of chunks
and embeddings, so the pairing silently stops at the shorter list; the
mock stores only the first five embedding dimensions (taking five from an
empty list is the empty list, matching the falsy-embedding branch of the
source). -/
def mkEntries (chunks : List PyStr) (embeddings : List (List ℚ)) :
    List StoredVec :=
  (chunks.zip embeddings).enum.map (fun p => ⟨p.1, p.2.1, p.2.2.take 5⟩)

/-- MockQdrantManager.store_vectors: create the key when absent, append the
zipped entries, and return the length of the chunks list. -/
def storeVectors (st : Idx) (d : String) (chunks : List PyStr)
    (embeddings : List (List ℚ)) : Idx × Nat :=
  let st1 := if idxHasKey st d then st else st ++ [(d, [])]
  (idxSet st1 d (idxGet st1 d ++ mkEntries chunks embeddings), chunks.length)

/-- Document filter of search_similar: a document is skipped only when the
filter argument is truthy (not None and not the empty string) and the id
differs. -/
def keepDoc (docFilter : Option String) (docId : String) : Bool :=
  match docFilter with
  | none => true
  | some f => f == "" || docId == f

/-- Loop of search_similar over the dictionary: for each kept document,
its first top_k passages become hits with the constant mock score. -/
def gatherHits (docFilter : Option String) (topK : Nat) : Idx → List Hit
  | [] => []
  | p :: rest =>
    (if keepDoc docFilter p.1 then
      (p.2.take topK).map (fun c => ⟨c.text, p.1, c.chunk_index, (85 : ℚ) / 100⟩)
    else []) ++ gatherHits docFilter topK rest

/-- MockQdrantManager.search_similar: gather per-document hits and keep the
first top_k overall.  The query embedding is unused by the mock. -/
def searchSimilar (st : Idx) (queryEmbedding : List ℚ) (topK : Nat)
    (docFilter : Option String) : List Hit :=
  (gatherHits docFilter topK st).take topK

/-- MockQdrantManager.delete_by_document_id: remove the key when present
and report whether it existed.  On dictionary states, where keys are
unique, the filter removes exactly the one entry the del statement
removes. -/
def deleteByDocumentId (st : Idx) (d : String) : Idx × Bool :=
  if idxHasKey st d then (st.filter (fun p => !(p.1 == d)), true)
  else (st, false)

/-- Message role; the service writes exactly the strings user and
assistant into the store. -/
inductive Role
  | user
  | assistant
deriving DecidableEq

/-- One conversation message.  add_message serialises the record to JSON
before rpush and get_conversation_history parses it back; that round trip
is the identity on these two-field records, so messages are stored
directly. -/
structure Msg where
  role : Role
  content : PyStr
deriving DecidableEq

/-- State of InMemoryStore: an insertion-ordered map from key to message
list (a defaultdict of lists). -/
abbrev Store := List (String × List Msg)

/-- Lookup in the store, empty when the key is absent (dict.get with a
default). -/
def storeGet (st : Store) (key : String) : List Msg :=
  match st.find? (fun p => p.1 == key) with
  | some p => p.2
  | none => []

/-- Membership test of a key in the store. -/
def storeHasKey (st : Store) (key : String) : Bool :=
  st.any (fun p => p.1 == key)

/-- Replacement of the value at a key, appending the key when absent; the
defaultdict creates entries on first use, in insertion order. -/
def storeSet : Store → String → List Msg → Store
  | [], k, v => [(k, v)]
  | p :: rest, k, v => if p.1 == k then (k, v) :: rest else p :: storeSet rest k v

/-- InMemoryStore.rpush: append one message at the end of the list at the
key. -/
def rpush (st : Store) (key : String) (m : Msg) : Store :=
  storeSet st key (storeGet st key ++ [m])

/-- InMemoryStore.lrange with Python slice semantics: an end index of -1
selects everything from start onwards, otherwise the slice runs to the end
index inclusive. -/
def lrange (st : Store) (key : String) (a b : Int) : List Msg :=
  if b = -1 then pyDropFrom (storeGet st key) a
  else pySlice (storeGet st key) a (b + 1)

/-- Session key built by RedisMemoryManager. -/
def sessionKey (sessionId : String) : String := "chat_session:" ++ sessionId

/-- RedisMemoryManager.add_message: push the message onto the session list
(the expire call is a no-op in the in-memory store). -/
def addMessage (st : Store) (sessionId : String) (role : Role)
    (content : PyStr) : Store :=
  rpush st (sessionKey sessionId) ⟨role, content⟩

/-- RedisMemoryManager.get_conversation_history: a truthy max_messages
selects the last max_messages entries via lrange with a negative start,
otherwise the whole list; zero is falsy in Python, hence the explicit
test. -/
def getConvHistory (st : Store) (sessionId : String)
    (maxMessages : Option Int) : List Msg :=
  match maxMessages with
  | some n =>
    if n ≠ 0 then lrange st (sessionKey sessionId) (-n) (-1)
    else lrange st (sessionKey sessionId) 0 (-1)
  | none => lrange st (sessionKey sessionId) 0 (-1)

/-- The apostrophe character, written through its code point. -/
def apoC : Char := Char.ofNat 39

/-- Python str.capitalize applied to the two stored role strings, as used
by the history formatting of _build_prompt. -/
def roleCap : Role → PyStr
  | Role.user => "User".toList
  | Role.assistant => "Assistant".toList

/-- Head of the prompt template of _build_prompt, up to the context
block. -/
def promptHead : PyStr :=
  "You are a helpful AI assistant. Use the following context and conversation history to answer the user".toList ++
    apoC :: "s question.\n\nContext from documents:\n".toList

/-- Tail of the prompt template, from the Instructions block to the answer
cue. -/
def promptTail : PyStr :=
  "\n\nInstructions:\n- Answer based on the provided context\n- If the context doesn".toList ++
    apoC :: "t contain relevant information, say so\n- Be conversational and helpful\n- Reference the context when applicable\n- Keep track of the conversation flow\n\nAnswer:".toList

/-- Context block header for hit number idx, one-based as in the
enumerate call of the source. -/
def contextPart (idx : Nat) (text : PyStr) : PyStr :=
  "[Context ".toList ++ (toString idx).toList ++ "]: ".toList ++ text

/-- settings.MAX_CONTEXT_LENGTH. -/
def maxContextLength : Nat := 2000

/-- CustomRAGService._build_prompt: numbered context blocks joined by
blank lines and truncated as a whole with an ellipsis marker, prior
history formatted as role-prefixed lines excluding the final (current)
entry, then the question and the fixed instructions. -/
def buildPrompt (userMsg : PyStr) (hits : List Hit) (hist : List Msg) : PyStr :=
  let contextParts := hits.enum.map (fun p => contextPart (p.1 + 1) p.2.text)
  let contextStr0 := List.intercalate "\n\n".toList contextParts
  let contextStr :=
    if maxContextLength < contextStr0.length then
      contextStr0.take maxContextLength ++ "...".toList
    else contextStr0
  let historyStr :=
    if 1 < hist.length then
      List.intercalate ['\n']
        (hist.dropLast.map (fun m => roleCap m.role ++ ": ".toList ++ m.content))
    else []
  promptHead ++ contextStr ++ "\n\nConversation History:\n".toList ++
    historyStr ++ "\n\nCurrent Question: ".toList ++ userMsg ++ promptTail

/-- Helper of the newline split: push a character onto the first
segment. -/
def consHead (c : Char) : List PyStr → List PyStr
  | [] => [[c]]
  | h :: t => (c :: h) :: t

/-- Python str.split on the newline character. -/
def pySplitNl : PyStr → List PyStr
  | [] => [[]]
  | c :: rest =>
    if c = '\n' then [] :: pySplitNl rest else consHead c (pySplitNl rest)

/-- Python str.startswith, pattern first. -/
def pyStartsWith : PyStr → PyStr → Bool
  | [], _ => true
  | _ :: _, [] => false
  | p :: ps, c :: cs => p = c && pyStartsWith ps cs

/-- Line loop of _generate_response: collect stripped non-empty lines seen
while inside a context section; a line beginning with the context marker
opens the section (that line itself is not collected) and the
current-question line closes it.  The question variable of the source is
never read afterwards and is omitted. -/
def genScan : Bool → List PyStr → List PyStr → List PyStr
  | _, acc, [] => acc
  | contextStart, acc, line :: rest =>
    if pyStartsWith "[Context".toList line then genScan true acc rest
    else if pyStartsWith "Current Question:".toList line then
      genScan false acc rest
    else if contextStart && !(pyStrip line).isEmpty then
      genScan contextStart (acc ++ [pyStrip line]) rest
    else genScan contextStart acc rest

/-- Fixed no-information response of _generate_response. -/
def noInfoMsg : PyStr :=
  "I couldn".toList ++ apoC ::
    "t find relevant information in the uploaded documents to answer your question. Please make sure you".toList ++
    apoC ::
    "ve uploaded documents related to your query, or try rephrasing your question.".toList

/-- Prefix of the context-echoing response of _generate_response. -/
def basedOnHead : PyStr :=
  "Based on the documents, here".toList ++ apoC :: "s what I found:\n\n".toList

/-- Suffix appended when the echoed context was truncated at one thousand
characters. -/
def moreInfoTail : PyStr :=
  "...\n\n(There".toList ++ apoC ::
    "s more information available in the documents)".toList

/-- CustomRAGService._generate_response: parse the prompt back into lines,
collect the context section, and either echo it truncated to one thousand
characters or return the fixed no-information text. -/
def generateResponse (prompt : PyStr) : PyStr :=
  let contextParts := genScan false [] (pySplitNl prompt)
  if contextParts ≠ [] then
    let fullContext := List.intercalate [' '] contextParts
    let response := basedOnHead ++ fullContext.take 1000
    if 1000 < fullContext.length then response ++ moreInfoTail else response
  else noInfoMsg

/-- Admissible behaviour of the Python builtin chain list(set(xs)) on
strings: the result enumerates exactly the distinct elements, in an order
the language does not specify (set iteration order depends on the
per-process string hash seed). -/
def PySetOK (f : List String → List String) : Prop :=
  ∀ xs, (f xs).Nodup ∧ ∀ d, d ∈ f xs ↔ d ∈ xs

/-- Modelled from the spec: deduplication keeping the first occurrence of
each element, in first-seen order; seen accumulates the elements already
emitted. -/
def dedupFirstSeenAux (seen : List String) : List String → List String
  | [] => []
  | x :: xs =>
    if x ∈ seen then dedupFirstSeenAux seen xs
    else x :: dedupFirstSeenAux (x :: seen) xs

/-- Modelled from the spec: the deduplicated list in first-seen order, the
order the spec asserts for the sources of a chat turn. -/
def dedupFirstSeen (xs : List String) : List String := dedupFirstSeenAux [] xs

/-- A concrete admissible set-iteration behaviour: the distinct elements
enumerated from the reversed list, one instance of the unspecified Python
set order. -/
def revOrderSet (xs : List String) : List String :=
  dedupFirstSeenAux [] xs.reverse

/-- One chat turn of CustomRAGService.chat over the session store.  The
awaited collaborator calls that can raise are passed as Except values:
retrieveR is the outcome of the retrieval step and generateR the outcome
of the generation step; an error aborts the turn at that point exactly as
a raised exception would.  pySet is the iteration behaviour of the
list(set(...)) chain used for the sources.  Returns the turn outcome
(response text and source document ids) together with the final store. -/
def chatTurn (pySet : List String → List String)
    (retrieveR : Except PyStr (List Hit))
    (generateR : PyStr → Except PyStr PyStr)
    (st : Store) (sessionId : String) (userMsg : PyStr) :
    Except PyStr (PyStr × List String) × Store :=
  let st1 := addMessage st sessionId Role.user userMsg
  match retrieveR with
  | Except.error e => (Except.error e, st1)
  | Except.ok hits =>
    let hist := getConvHistory st1 sessionId (some 10)
    let prompt := buildPrompt userMsg hits hist
    match generateR prompt with
    | Except.error e => (Except.error e, st1)
    | Except.ok response =>
      let st2 := addMessage st1 sessionId Role.assistant response
      let sources := pySet (hits.map Hit.document_id)
      (Except.ok (response, sources), st2)

end DocInj

namespace DocInj

theorem dropWhile_head_false {α : Type} {p : α → Bool} :
    ∀ (s : List α) (c : α) (r : List α), s.dropWhile p = c :: r → p c = false := by
  intro s
  induction s with
  | nil => intro c r hcr; simp [List.dropWhile] at hcr
  | cons a as ih =>
    intro c r hcr
    by_cases hp : p a
    · simp [List.dropWhile, hp] at hcr
      exact ih c r hcr
    · simp [List.dropWhile, hp] at hcr
      simp [← hcr.1]
      simpa using hp

theorem pyStrip_decomp (s : PyStr) :
    ∃ t, s.dropWhile pyIsSpace = pyStrip s ++ t := by
  refine ⟨((s.dropWhile pyIsSpace).reverse.takeWhile pyIsSpace).reverse, ?_⟩
  unfold pyStrip
  conv_rhs =>
    rw [← List.reverse_append, List.takeWhile_append_dropWhile,
      List.reverse_reverse]

theorem pyStrip_head (s : PyStr) (c : Char) (r : PyStr)
    (h : pyStrip s = c :: r) : pyIsSpace c = false := by
  obtain ⟨t, ht⟩ := pyStrip_decomp s
  rw [h] at ht
  exact dropWhile_head_false s c (r ++ t) (by simpa using ht)

theorem pyStrip_eq_nil_iff (s : PyStr) :
    pyStrip s = [] ↔ ∀ c ∈ s, pyIsSpace c = true := by
  unfold pyStrip
  rw [List.reverse_eq_nil_iff, List.dropWhile_eq_nil_iff]
  constructor
  · intro h c hc
    rcases List.mem_append.mp
      ((List.takeWhile_append_dropWhile (p := pyIsSpace) (l := s)) ▸ hc) with h1 | h1
    · exact List.mem_takeWhile_imp h1
    · exact h c (List.mem_reverse.mpr h1)
  · intro h c hc
    exact h c ((List.dropWhile_sublist _).subset (List.mem_reverse.mp hc))

theorem pyStrip_length_le (s : PyStr) : (pyStrip s).length ≤ s.length := by
  unfold pyStrip
  calc ((s.dropWhile pyIsSpace).reverse.dropWhile pyIsSpace).reverse.length
      = ((s.dropWhile pyIsSpace).reverse.dropWhile pyIsSpace).length := by
        rw [List.length_reverse]
    _ ≤ (s.dropWhile pyIsSpace).reverse.length :=
        (List.dropWhile_sublist _).length_le
    _ = (s.dropWhile pyIsSpace).length := by rw [List.length_reverse]
    _ ≤ s.length := (List.dropWhile_sublist _).length_le

theorem pyStrip_subset (s : PyStr) (c : Char) (h : c ∈ pyStrip s) : c ∈ s := by
  unfold pyStrip at h
  rw [List.mem_reverse] at h
  have h1 := (List.dropWhile_sublist _).subset h
  rw [List.mem_reverse] at h1
  exact (List.dropWhile_sublist _).subset h1

theorem pyIdx_le_length (len : Nat) (i : Int) : pyIdx len i ≤ len := by
  unfold pyIdx
  split <;> omega

theorem pySlice_length_le {α : Type} (l : List α) (a k : Int)
    (ha : 0 ≤ a) (hk : 0 ≤ k) : (pySlice l a (a + k)).length ≤ k.toNat := by
  unfold pySlice
  rw [List.length_drop, List.length_take]
  unfold pyIdx
  split_ifs <;> omega

theorem fixedLoopF_stable (size overlap : Int) (t : PyStr) :
    ∀ (fuel : Nat) (start : Int) (acc : List PyStr),
      ((t.length : Int) - start).toNat < fuel →
      fixedLoopF size overlap t (fuel + 1) start acc =
        fixedLoopF size overlap t fuel start acc := by
  intro fuel
  induction fuel with
  | zero => intro start acc h; omega
  | succ f ih =>
    intro start acc h
    rw [fixedLoopF, fixedLoopF]
    by_cases h1 : start < (t.length : Int)
    · simp only [if_pos h1]
      by_cases h2 : size ≤ overlap
      · simp only [if_pos h2]
      · simp only [if_neg h2]
        exact ih (start + (size - overlap)) _ (by omega)
    · simp only [if_neg h1]

theorem fixedLoopF_acc (size overlap : Int) (t : PyStr) :
    ∀ (fuel : Nat) (start : Int) (acc : List PyStr),
      ∃ l2, fixedLoopF size overlap t fuel start acc = acc ++ l2 := by
  intro fuel
  induction fuel with
  | zero => intro start acc; exact ⟨[], by simp [fixedLoopF]⟩
  | succ f ih =>
    intro start acc
    rw [fixedLoopF]
    by_cases h1 : start < (t.length : Int)
    · simp only [if_pos h1]
      by_cases hc : pyStrip (pySlice t start (start + size)) = []
      · simp only [if_pos hc]
        by_cases h2 : size ≤ overlap
        · simp only [if_pos h2]
          exact ⟨[], by simp⟩
        · simp only [if_neg h2]
          exact ih _ acc
      · simp only [if_neg hc]
        by_cases h2 : size ≤ overlap
        · simp only [if_pos h2]
          exact ⟨[pyStrip (pySlice t start (start + size))], rfl⟩
        · simp only [if_neg h2]
          obtain ⟨l2, hl⟩ := ih (start + (size - overlap))
            (acc ++ [pyStrip (pySlice t start (start + size))])
          exact ⟨[pyStrip (pySlice t start (start + size))] ++ l2, by
            rw [hl, List.append_assoc]⟩
    · simp only [if_neg h1]
      exact ⟨[], by simp⟩

theorem fixedLoopF_mem (size overlap : Int) (t : PyStr) (hsize : 0 ≤ size) :
    ∀ (fuel : Nat) (start : Int) (acc : List PyStr), 0 ≤ start →
      ∀ c ∈ fixedLoopF size overlap t fuel start acc,
        c ∈ acc ∨ c.length ≤ size.toNat := by
  intro fuel
  induction fuel with
  | zero =>
    intro start acc hs c hc
    rw [fixedLoopF] at hc
    exact Or.inl hc
  | succ f ih =>
    intro start acc hs c hc
    rw [fixedLoopF] at hc
    by_cases h1 : start < (t.length : Int)
    · simp only [if_pos h1] at hc
      have hlen : (pyStrip (pySlice t start (start + size))).length ≤ size.toNat :=
        le_trans (pyStrip_length_le _) (pySlice_length_le t start size hs hsize)
      have hacc2 : ∀ d ∈ (if pyStrip (pySlice t start (start + size)) = []
          then acc else acc ++ [pyStrip (pySlice t start (start + size))]),
          d ∈ acc ∨ d.length ≤ size.toNat := by
        intro d hd
        by_cases hcnil : pyStrip (pySlice t start (start + size)) = []
        · simp only [if_pos hcnil] at hd
          exact Or.inl hd
        · simp only [if_neg hcnil] at hd
          rcases List.mem_append.mp hd with h | h
          · exact Or.inl h
          · right
            rw [List.mem_singleton.mp h]
            exact hlen
      by_cases h2 : size ≤ overlap
      · simp only [if_pos h2] at hc
        exact hacc2 c hc
      · simp only [if_neg h2] at hc
        rcases ih _ _ (by omega) c hc with h | h
        · exact hacc2 c h
        · exact Or.inr h
    · simp only [if_neg h1] at hc
      exact Or.inl hc

theorem cleanText_head_not_space (s : PyStr) (c : Char) (r : PyStr)
    (h : cleanText s = c :: r) : pyIsSpace c = false :=
  pyStrip_head (collapseWs s) c r h

theorem fixedChunkText_mem (size overlap : Int) (text : PyStr) (hsize : 0 ≤ size) :
    ∀ c ∈ fixedChunkText size overlap text, c.length ≤ size.toNat := by
  intro c hc
  unfold fixedChunkText at hc
  by_cases ht : text = []
  · simp [ht] at hc
  · simp only [if_neg ht] at hc
    rcases fixedLoopF_mem size overlap (cleanText text) hsize _ 0 [] (by omega) c hc
      with h | h
    · simp at h
    · exact h

theorem pyStrip_ne_nil_of_mem (s : PyStr) (c : Char) (hm : c ∈ s)
    (hc : pyIsSpace c = false) : pyStrip s ≠ [] := by
  intro h
  have hall := (pyStrip_eq_nil_iff s).mp h c hm
  rw [hc] at hall
  exact Bool.false_ne_true hall

theorem fixedChunkText_ne_nil (size overlap : Int) (text : PyStr)
    (hsize : 1 ≤ size) (hclean : cleanText text ≠ []) :
    fixedChunkText size overlap text ≠ [] := by
  unfold fixedChunkText
  have ht : text ≠ [] := by
    intro h
    rw [h] at hclean
    exact hclean rfl
  simp only [if_neg ht]
  rcases hcn : cleanText text with _ | ⟨c, r⟩
  · exact absurd hcn hclean
  · rw [fixedLoopF]
    have h1 : (0 : Int) < ((c :: r).length : Int) := by
      simp only [List.length_cons]
      omega
    simp only [if_pos h1]
    have hchunk : pyStrip (pySlice (c :: r) 0 (0 + size)) ≠ [] := by
      apply pyStrip_ne_nil_of_mem _ c
      · unfold pySlice pyIdx
        have hk : ¬((0 : Int) + size < 0) := by omega
        have hz : ¬((0 : Int) < 0) := by omega
        simp only [if_neg hk, if_neg hz]
        have hmin0 : min (0 : Int).toNat (c :: r).length = 0 := by
          simp
        rw [hmin0, List.drop_zero]
        obtain ⟨k, hkk⟩ : ∃ k, min ((0 : Int) + size).toNat (c :: r).length = k + 1 := by
          refine ⟨min ((0 : Int) + size).toNat (c :: r).length - 1, ?_⟩
          simp only [List.length_cons]
          omega
        rw [hkk, List.take_succ_cons]
        exact List.mem_cons_self c _
      · exact cleanText_head_not_space text c r hcn
    simp only [if_neg hchunk]
    by_cases h2 : size ≤ overlap
    · simp only [if_pos h2]
      simp
    · simp only [if_neg h2]
      obtain ⟨l2, hl⟩ := fixedLoopF_acc size overlap (c :: r) (c :: r).length
        (0 + (size - overlap)) ([] ++ [pyStrip (pySlice (c :: r) 0 (0 + size))])
      rw [hl]
      simp

/-- C1 counterexample: with size = 2 and overlap = 2 (a degenerate
configuration, overlap at least size), chunk_text raises nothing at all:
the source has no raise statement and no ConfigError exists anywhere in the
repository; the loop breaks after its first iteration and the call returns
the single chunk of the first window.  The embedding is therefore total,
and evaluating it at a concrete degenerate input returns an ordinary value,
refuting the claim that this configuration raises ConfigError. -/
theorem claim1_counterexample :
    fixedChunkText 2 2 ['a', 'b', 'c', 'd'] = [['a', 'b']] := by decide

/-- C1 (amended): for every text and every fixed-size configuration with
overlap at least size, chunk_text raises no error (it has no error path;
the orchestrator performs no such rejection either), and the loop breaks
after its first iteration, so the call terminates and returns at most one
chunk. -/
theorem claim1_theorem (size overlap : Int) (text : PyStr)
    (h : size ≤ overlap) : (fixedChunkText size overlap text).length ≤ 1 := by
  unfold fixedChunkText
  by_cases ht : text = []
  · simp [ht]
  · simp only [if_neg ht]
    rw [fixedLoopF]
    by_cases h1 : (0 : Int) < ((cleanText text).length : Int)
    · simp only [if_pos h1, if_pos h]
      split <;> simp
    · simp only [if_neg h1]
      simp

/-- C1 witness: the amended theorem applied at a concrete degenerate
configuration. -/
theorem claim1_witness :
    (2 : Int) ≤ 2 ∧ (fixedChunkText 2 2 ['a', 'b', 'c', 'd']).length ≤ 1 :=
  ⟨by decide, claim1_theorem 2 2 ['a', 'b', 'c', 'd'] (by decide)⟩

/-- C3 counterexample: a single space is a non-empty text, and with size 2
and overlap 0 (a valid configuration with overlap below size) fixed-size
chunking returns the empty sequence, because the clean step collapses the
text to the empty string: the claim fails for whitespace-only inputs. -/
theorem claim3_counterexample :
    ([' '] : PyStr) ≠ [] ∧ fixedChunkText 2 0 [' '] = [] := by decide

/-- C3 (amended): for every text whose cleaned form (whitespace collapsed
and stripped) is non-empty, and every fixed-size configuration with
positive size and non-negative overlap below size, chunk_text returns a
non-empty sequence of chunks and every chunk has length at most size. -/
theorem claim3_theorem (size overlap : Int) (text : PyStr)
    (hsize : 1 ≤ size) (hov : 0 ≤ overlap) (hlt : overlap < size)
    (hclean : cleanText text ≠ []) :
    fixedChunkText size overlap text ≠ [] ∧
      ∀ c ∈ fixedChunkText size overlap text, (c.length : Int) ≤ size := by
  constructor
  · exact fixedChunkText_ne_nil size overlap text hsize hclean
  · intro c hc
    have hb := fixedChunkText_mem size overlap text (by omega) c hc
    omega

/-- C3 witness: the amended theorem applied at a concrete input. -/
theorem claim3_witness :
    (cleanText ['a', 'b'] ≠ [] ∧
      fixedChunkText 2 0 ['a', 'b'] ≠ [] ∧
      ∀ c ∈ fixedChunkText 2 0 ['a', 'b'], (c.length : Int) ≤ 2) := by
  refine ⟨by decide, ?_⟩
  have h := claim3_theorem 2 0 ['a', 'b'] (by decide) (by decide) (by decide)
    (by decide)
  exact ⟨h.1, h.2⟩

theorem collapseWsAux_mem :
    ∀ (s : PyStr) (f : Bool) (c : Char), c ∈ collapseWsAux f s →
      c = ' ' ∨ pyIsSpace c = false := by
  intro s
  induction s with
  | nil =>
    intro f c hc
    simp [collapseWsAux] at hc
  | cons a as ih =>
    intro f c hc
    rw [collapseWsAux] at hc
    by_cases ha : pyIsSpace a
    · rw [if_pos ha] at hc
      by_cases hf : f
      · rw [if_pos hf] at hc
        exact ih true c hc
      · rw [if_neg hf] at hc
        rcases List.mem_cons.mp hc with h | h
        · exact Or.inl h
        · exact ih true c h
    · rw [if_neg ha] at hc
      rcases List.mem_cons.mp hc with h | h
      · rw [h]
        exact Or.inr (by simpa using ha)
      · exact ih false c h

theorem cleanText_no_newline (s : PyStr) : '\n' ∉ cleanText s := by
  intro h
  have h2 := pyStrip_subset (collapseWs s) '\n' h
  rcases collapseWsAux_mem s false '\n' h2 with h3 | h3
  · exact absurd h3 (by decide)
  · exact absurd h3 (by decide)

theorem semFold_inv (minC maxC target : Nat) (sents0 : List PyStr) :
    ∀ (sents : List PyStr) (chunks : List PyStr) (cur : PyStr),
      (∀ s ∈ sents, s ∈ sents0) →
      (cur.length ≤ maxC ∨ ∃ s ∈ sents0, cur.length ≤ s.length) →
      (∀ c ∈ chunks, c.length ≤ maxC ∨
        ∃ s ∈ sents0, c.length ≤ minC + 1 + s.length) →
      (∀ c ∈ (sents.foldl (semStep minC maxC target) (chunks, cur)).1,
          c.length ≤ maxC ∨ ∃ s ∈ sents0, c.length ≤ minC + 1 + s.length) ∧
        ((sents.foldl (semStep minC maxC target) (chunks, cur)).2.length ≤ maxC ∨
          ∃ s ∈ sents0,
            (sents.foldl (semStep minC maxC target) (chunks, cur)).2.length ≤
              s.length) := by
  intro sents
  induction sents with
  | nil =>
    intro chunks cur hsub hcur hch
    exact ⟨hch, hcur⟩
  | cons s rest ih =>
    intro chunks cur hsub hcur hch
    rw [List.foldl_cons]
    have hs0 : s ∈ sents0 := hsub s (List.mem_cons_self s rest)
    have hsub2 : ∀ x ∈ rest, x ∈ sents0 :=
      fun x hx => hsub x (List.mem_cons_of_mem s hx)
    have hpot : (if cur ≠ [] then cur ++ ' ' :: s else s).length ≤
        cur.length + 1 + s.length := by
      split
      · simp only [List.length_append, List.length_cons]
        omega
      · omega
    by_cases hA : maxC < (if cur ≠ [] then cur ++ ' ' :: s else s).length
    · by_cases hB : minC ≤ cur.length
      · have hstep : semStep minC maxC target (chunks, cur) s =
            (chunks ++ [pyStrip cur], s) := by
          unfold semStep
          simp only [if_pos hA, if_pos hB]
        rw [hstep]
        apply ih _ _ hsub2 (Or.inr ⟨s, hs0, le_refl _⟩)
        intro c hc
        rcases List.mem_append.mp hc with h | h
        · exact hch c h
        · rw [List.mem_singleton.mp h]
          rcases hcur with h2 | ⟨s2, hs2, hlen⟩
          · exact Or.inl (le_trans (pyStrip_length_le cur) h2)
          · exact Or.inr ⟨s2, hs2, le_trans (pyStrip_length_le cur) (by omega)⟩
      · have hstep : semStep minC maxC target (chunks, cur) s =
            (chunks ++ [pyStrip (if cur ≠ [] then cur ++ ' ' :: s else s)], []) := by
          unfold semStep
          simp only [if_pos hA, if_neg hB]
        rw [hstep]
        apply ih _ _ hsub2 (Or.inl (by simp))
        intro c hc
        rcases List.mem_append.mp hc with h | h
        · exact hch c h
        · rw [List.mem_singleton.mp h]
          refine Or.inr ⟨s, hs0, le_trans (pyStrip_length_le _) ?_⟩
          omega
    · by_cases hC : target ≤ (if cur ≠ [] then cur ++ ' ' :: s else s).length
      · have hstep : semStep minC maxC target (chunks, cur) s =
            (chunks ++ [pyStrip (if cur ≠ [] then cur ++ ' ' :: s else s)], []) := by
          unfold semStep
          simp only [if_neg hA, if_pos hC]
        rw [hstep]
        apply ih _ _ hsub2 (Or.inl (by simp))
        intro c hc
        rcases List.mem_append.mp hc with h | h
        · exact hch c h
        · rw [List.mem_singleton.mp h]
          exact Or.inl (le_trans (pyStrip_length_le _) (by omega))
      · have hstep : semStep minC maxC target (chunks, cur) s =
            (chunks, if cur ≠ [] then cur ++ ' ' :: s else s) := by
          unfold semStep
          simp only [if_neg hA, if_neg hC]
        rw [hstep]
        exact ih _ _ hsub2 (Or.inl (by omega)) hch

/-- C4 counterexample: with target size 4 (maximum bound 8), the text made
of two twelve-character sentences produces two chunks that both exceed
twice the target, refuting that at most a single returned chunk may exceed
the bound: each oversized sentence force-flushes on its own. -/
theorem claim4_counterexample :
    ((semanticChunkText 4 "Aaaaaaaaaaa. Bbbbbbbbbbb.".toList).filter
      (fun c => decide (8 < c.length))).length = 2 := by decide

/-- C4 (amended): for every text and target size, every returned chunk
either has length at most twice the target or is a forced flush caused by
an oversized sentence: its length is bounded by the minimum bound (half
the target) plus one plus the length of some sentence of the text.  More
than one such oversized chunk can occur, one per oversized sentence. -/
theorem claim4_theorem (target : Nat) (text : PyStr) (c : PyStr)
    (hc : c ∈ semanticChunkText target text) :
    c.length ≤ 2 * target ∨
      ∃ s ∈ sentencesOf text, c.length ≤ target / 2 + 1 + s.length := by
  unfold semanticChunkText at hc
  by_cases ht : text = []
  · rw [if_pos ht] at hc
    simp at hc
  · rw [if_neg ht] at hc
    have h := semFold_inv (target / 2) (target * 2) target (sentencesOf text)
      (sentencesOf text) [] [] (fun s hs => hs) (Or.inl (by simp))
      (by intro x hx; simp at hx)
    unfold semFinal at hc
    by_cases hnil :
        pyStrip ((sentencesOf text).foldl
          (semStep (target / 2) (target * 2) target) ([], [])).2 = []
    · rw [if_pos hnil] at hc
      rcases h.1 c hc with h2 | h2
      · left
        omega
      · exact Or.inr h2
    · rw [if_neg hnil] at hc
      rcases List.mem_append.mp hc with h2 | h2
      · rcases h.1 c h2 with h3 | h3
        · left
          omega
        · exact Or.inr h3
      · rw [List.mem_singleton.mp h2]
        rcases h.2 with h3 | ⟨s, hs, hlen⟩
        · left
          have := pyStrip_length_le ((sentencesOf text).foldl
            (semStep (target / 2) (target * 2) target) ([], [])).2
          omega
        · refine Or.inr ⟨s, hs, le_trans (pyStrip_length_le _) (by omega)⟩

/-- C4 witness: the amended theorem applied to the first oversized chunk of
the counterexample text. -/
theorem claim4_witness :
    "Aaaaaaaaaaa.".toList ∈ semanticChunkText 4 "Aaaaaaaaaaa. Bbbbbbbbbbb.".toList ∧
      ("Aaaaaaaaaaa.".toList.length ≤ 2 * 4 ∨
        ∃ s ∈ sentencesOf "Aaaaaaaaaaa. Bbbbbbbbbbb.".toList,
          "Aaaaaaaaaaa.".toList.length ≤ 4 / 2 + 1 + s.length) :=
  ⟨by decide, claim4_theorem 4 "Aaaaaaaaaaa. Bbbbbbbbbbb.".toList
    "Aaaaaaaaaaa.".toList (by decide)⟩

theorem gatherHits_score (docFilter : Option String) (topK : Nat) :
    ∀ (l : Idx) (h : Hit), h ∈ gatherHits docFilter topK l →
      h.score = (85 : ℚ) / 100 := by
  intro l
  induction l with
  | nil =>
    intro h hh
    simp [gatherHits] at hh
  | cons p rest ih =>
    intro h hh
    rw [gatherHits] at hh
    rcases List.mem_append.mp hh with h1 | h1
    · by_cases hk : keepDoc docFilter p.1
      · rw [if_pos hk] at h1
        obtain ⟨c, _, hc⟩ := List.mem_map.mp h1
        rw [← hc]
      · rw [if_neg hk] at h1
        simp at h1
    · exact ih h h1

theorem hitsPairwise (l : List Hit) (h : ∀ x ∈ l, x.score = (85 : ℚ) / 100) :
    List.Pairwise (fun a b => b.score ≤ a.score) l := by
  induction l with
  | nil => exact List.Pairwise.nil
  | cons a rest ih =>
    rw [List.pairwise_cons]
    constructor
    · intro b hb
      rw [h a (List.mem_cons_self a rest), h b (List.mem_cons_of_mem a hb)]
    · exact ih (fun x hx => h x (List.mem_cons_of_mem a hx))

theorem gatherHits_docid (f : String) (hf : f ≠ "") (topK : Nat) :
    ∀ (l : Idx) (h : Hit), h ∈ gatherHits (some f) topK l →
      h.document_id = f := by
  intro l
  induction l with
  | nil =>
    intro h hh
    simp [gatherHits] at hh
  | cons p rest ih =>
    intro h hh
    rw [gatherHits] at hh
    rcases List.mem_append.mp hh with h1 | h1
    · by_cases hk : keepDoc (some f) p.1
      · rw [if_pos hk] at h1
        obtain ⟨c, _, hc⟩ := List.mem_map.mp h1
        unfold keepDoc at hk
        rcases Bool.or_eq_true_iff.mp hk with h2 | h2
        · exact absurd (by simpa using h2) hf
        · rw [← hc]
          have : p.1 = f := by simpa using h2
          simpa using this
      · rw [if_neg hk] at h1
        simp at h1
    · exact ih h h1

theorem gatherHits_nil (f : String) (hf : f ≠ "") (topK : Nat) :
    ∀ (l : Idx), (∀ p ∈ l, ¬(p.1 = f)) → gatherHits (some f) topK l = [] := by
  intro l
  induction l with
  | nil => intro _; rfl
  | cons p rest ih =>
    intro hall
    rw [gatherHits]
    have hk : keepDoc (some f) p.1 = false := by
      unfold keepDoc
      rw [Bool.or_eq_false_iff]
      constructor
      · simpa using hf
      · simpa using hall p (List.mem_cons_self p rest)
    rw [hk]
    simp only [Bool.false_eq_true, if_false, List.nil_append]
    exact ih (fun x hx => hall x (List.mem_cons_of_mem p hx))

theorem idxHasKey_false_mem (st : Idx) (d : String)
    (h : idxHasKey st d = false) : ∀ p ∈ st, ¬(p.1 = d) := by
  intro p hp hpd
  have hany : st.any (fun q => q.1 == d) = true :=
    List.any_eq_true.mpr ⟨p, hp, by simpa using hpd⟩
  rw [idxHasKey, hany] at h
  exact Bool.noConfusion h

theorem idxGet_nil_of_no_key (st : Idx) (d : String)
    (h : idxHasKey st d = false) : idxGet st d = [] := by
  rw [idxGet]
  have : st.find? (fun p => p.1 == d) = none := by
    rw [List.find?_eq_none]
    intro p hp
    simpa using idxHasKey_false_mem st d h p hp
  rw [this]

theorem idxGet_set (d : String) (v : List StoredVec) :
    ∀ (st : Idx), idxGet (idxSet st d v) d = v := by
  intro st
  induction st with
  | nil => simp [idxSet, idxGet, List.find?]
  | cons p rest ih =>
    rw [idxSet]
    by_cases hp : p.1 = d
    · simp only [hp, beq_self_eq_true, if_true]
      simp [idxGet, List.find?]
    · have hb : (p.1 == d) = false := by simpa using hp
      rw [hb]
      simp only [Bool.false_eq_true, if_false]
      rw [idxGet, List.find?]
      simp only [hb]
      exact ih

theorem idxGet_append_new (st : Idx) (d : String) (v : List StoredVec)
    (h : idxHasKey st d = false) : idxGet (st ++ [(d, v)]) d = v := by
  induction st with
  | nil => simp [idxGet, List.find?]
  | cons p rest ih =>
    have hp : ¬(p.1 = d) :=
      idxHasKey_false_mem (p :: rest) d h p (List.mem_cons_self p rest)
    have hb : (p.1 == d) = false := by simpa using hp
    rw [List.cons_append, idxGet, List.find?]
    simp only [hb]
    have hrest : idxHasKey rest d = false := by
      rw [idxHasKey, List.any_eq_false]
      intro q hq
      simpa using idxHasKey_false_mem (p :: rest) d h q (List.mem_cons_of_mem p hq)
    rw [← idxGet]
    exact ih hrest

/-- C7: for every index state, query vector, positive top_k and optional
document filter, search_similar returns at most top_k hits, the scores are
non-increasing in result order (the mock assigns the constant score 0.85
to every hit), and when a non-empty document filter is given every
returned hit belongs to that document.  A filter that is None or the empty
string is falsy in the source and disables filtering. -/
theorem claim7_theorem (st : Idx) (q : List ℚ) (topK : Nat)
    (docFilter : Option String) (htop : 0 < topK) :
    (searchSimilar st q topK docFilter).length ≤ topK ∧
      List.Pairwise (fun a b => b.score ≤ a.score)
        (searchSimilar st q topK docFilter) ∧
      ∀ f, docFilter = some f → f ≠ "" →
        ∀ h ∈ searchSimilar st q topK docFilter, h.document_id = f := by
  refine ⟨?_, ?_, ?_⟩
  · unfold searchSimilar
    exact List.length_take_le _ _
  · apply hitsPairwise
    intro x hx
    exact gatherHits_score docFilter topK st x (List.mem_of_mem_take hx)
  · intro f hf hne h hh
    rw [hf] at hh
    exact gatherHits_docid f hne topK st h (List.mem_of_mem_take hh)

/-- C7 witness: the theorem applied at a concrete one-document state. -/
theorem claim7_witness :
    0 < 1 ∧
      ((searchSimilar [("a", [⟨0, [], []⟩])] [] 1 (some "a")).length ≤ 1 ∧
        List.Pairwise (fun a b => b.score ≤ a.score)
          (searchSimilar [("a", [⟨0, [], []⟩])] [] 1 (some "a")) ∧
        ∀ f, (some "a" : Option String) = some f → f ≠ "" →
          ∀ h ∈ searchSimilar [("a", [⟨0, [], []⟩])] [] 1 (some "a"),
            h.document_id = f) :=
  ⟨by decide, claim7_theorem [("a", [⟨0, [], []⟩])] [] 1 (some "a") (by decide)⟩

/-- C8 counterexample: store_vectors called with one chunk and an empty
embeddings list creates the dictionary key but adds no passages; deleting
that document then returns true although no passage for it ever existed,
refuting the claim that delete returns true only if passages existed. -/
theorem claim8_counterexample :
    (deleteByDocumentId (storeVectors [] "d" [['c']] []).1 "d").2 = true ∧
      idxGet (storeVectors [] "d" [['c']] []).1 "d" = [] := by decide

/-- C8 (amended): delete_by_document_id returns true iff an entry for the
document id exists among the keys, an entry that can hold zero passages
after a store_vectors call whose embeddings list was empty; deleting a
non-existent id returns false, not an error; and after deleting d, a
search filtered to a non-empty id d returns zero hits. -/
theorem claim8_theorem (st : Idx) (d : String) (q : List ℚ) (topK : Nat)
    (hd : d ≠ "") :
    (deleteByDocumentId st d).2 = idxHasKey st d ∧
      searchSimilar (deleteByDocumentId st d).1 q topK (some d) = [] := by
  constructor
  · unfold deleteByDocumentId
    by_cases hk : idxHasKey st d
    · simp [hk]
    · rw [Bool.not_eq_true] at hk
      simp [hk]
  · unfold searchSimilar
    have hnil : gatherHits (some d) topK (deleteByDocumentId st d).1 = [] := by
      apply gatherHits_nil d hd
      intro p hp
      unfold deleteByDocumentId at hp
      by_cases hk : idxHasKey st d
      · simp only [hk, if_true] at hp
        have := (List.mem_filter.mp hp).2
        simpa using this
      · rw [Bool.not_eq_true] at hk
        simp only [hk, Bool.false_eq_true, if_false] at hp
        exact idxHasKey_false_mem st d hk p hp
    rw [hnil]
    simp

/-- C8 witness: the amended theorem applied at a concrete state. -/
theorem claim8_witness :
    ("a" : String) ≠ "" ∧
      ((deleteByDocumentId [("a", [⟨0, [], []⟩])] "a").2 =
          idxHasKey [("a", [⟨0, [], []⟩])] "a" ∧
        searchSimilar (deleteByDocumentId [("a", [⟨0, [], []⟩])] "a").1 [] 5
          (some "a") = []) :=
  ⟨by decide, claim8_theorem [("a", [⟨0, [], []⟩])] "a" [] 5 (by decide)⟩

/-- C10: store_vectors always returns the length of the chunks list, while
the entries actually appended to the index for the document are the zip of
chunks and embeddings, whose length is the minimum of the two lengths: a
shorter embeddings list silently truncates the pairing. -/
theorem claim10_theorem (st : Idx) (d : String) (chunks : List PyStr)
    (embeddings : List (List ℚ)) :
    (storeVectors st d chunks embeddings).2 = chunks.length ∧
      idxGet (storeVectors st d chunks embeddings).1 d =
        idxGet st d ++ mkEntries chunks embeddings ∧
      (mkEntries chunks embeddings).length =
        min chunks.length embeddings.length := by
  refine ⟨rfl, ?_, ?_⟩
  · unfold storeVectors
    by_cases hk : idxHasKey st d
    · simp only [hk, if_true]
      exact idxGet_set d _ st
    · rw [Bool.not_eq_true] at hk
      simp only [hk, Bool.false_eq_true, if_false]
      rw [idxGet_set d _ (st ++ [(d, [])])]
      rw [idxGet_append_new st d [] hk, idxGet_nil_of_no_key st d hk]
  · unfold mkEntries
    simp [List.length_zip]

theorem storeHasKey_false_mem (st : Store) (k : String)
    (h : storeHasKey st k = false) : ∀ p ∈ st, ¬(p.1 = k) := by
  intro p hp hpk
  have hany : st.any (fun q => q.1 == k) = true :=
    List.any_eq_true.mpr ⟨p, hp, by simpa using hpk⟩
  rw [storeHasKey, hany] at h
  exact Bool.noConfusion h

theorem storeGet_nil_of_no_key (st : Store) (k : String)
    (h : storeHasKey st k = false) : storeGet st k = [] := by
  rw [storeGet]
  have hf : st.find? (fun p => p.1 == k) = none := by
    rw [List.find?_eq_none]
    intro p hp
    simpa using storeHasKey_false_mem st k h p hp
  rw [hf]

/-- C6: for every store, session and positive limit N,
get_conversation_history returns exactly the last min(N, count) messages
of the session in their original order (the drop below keeps a suffix in
chronological order), and an unknown session yields the empty sequence
rather than an error. -/
theorem claim6_theorem (st : Store) (sessionId : String) (n : Int)
    (hn : 0 < n) :
    getConvHistory st sessionId (some n) =
      (storeGet st (sessionKey sessionId)).drop
        ((storeGet st (sessionKey sessionId)).length - n.toNat) ∧
      (getConvHistory st sessionId (some n)).length =
        min n.toNat (storeGet st (sessionKey sessionId)).length ∧
      (storeHasKey st (sessionKey sessionId) = false →
        getConvHistory st sessionId (some n) = []) := by
  have hmain : getConvHistory st sessionId (some n) =
      (storeGet st (sessionKey sessionId)).drop
        ((storeGet st (sessionKey sessionId)).length - n.toNat) := by
    simp only [getConvHistory]
    rw [if_pos (by omega : n ≠ 0)]
    unfold lrange
    rw [if_pos rfl]
    unfold pyDropFrom pyIdx
    rw [if_pos (by omega : -n < 0)]
    congr 1
    omega
  refine ⟨hmain, ?_, ?_⟩
  · rw [hmain, List.length_drop]
    omega
  · intro hk
    rw [hmain, storeGet_nil_of_no_key st _ hk]
    simp

/-- C6 witness: the theorem applied at a three-message session with limit
two. -/
theorem claim6_witness :
    (0 : Int) < 2 ∧
      (getConvHistory [(sessionKey "s",
          [⟨Role.user, ['a']⟩, ⟨Role.assistant, ['b']⟩, ⟨Role.user, ['c']⟩])]
          "s" (some 2) =
        (storeGet [(sessionKey "s",
          [⟨Role.user, ['a']⟩, ⟨Role.assistant, ['b']⟩, ⟨Role.user, ['c']⟩])]
          (sessionKey "s")).drop
          ((storeGet [(sessionKey "s",
            [⟨Role.user, ['a']⟩, ⟨Role.assistant, ['b']⟩, ⟨Role.user, ['c']⟩])]
            (sessionKey "s")).length - (2 : Int).toNat) ∧
        (getConvHistory [(sessionKey "s",
          [⟨Role.user, ['a']⟩, ⟨Role.assistant, ['b']⟩, ⟨Role.user, ['c']⟩])]
          "s" (some 2)).length =
          min (2 : Int).toNat
            (storeGet [(sessionKey "s",
              [⟨Role.user, ['a']⟩, ⟨Role.assistant, ['b']⟩, ⟨Role.user, ['c']⟩])]
              (sessionKey "s")).length ∧
        (storeHasKey [(sessionKey "s",
            [⟨Role.user, ['a']⟩, ⟨Role.assistant, ['b']⟩, ⟨Role.user, ['c']⟩])]
            (sessionKey "s") = false →
          getConvHistory [(sessionKey "s",
            [⟨Role.user, ['a']⟩, ⟨Role.assistant, ['b']⟩, ⟨Role.user, ['c']⟩])]
            "s" (some 2) = [])) :=
  ⟨by decide, claim6_theorem
    [(sessionKey "s",
      [⟨Role.user, ['a']⟩, ⟨Role.assistant, ['b']⟩, ⟨Role.user, ['c']⟩])]
    "s" 2 (by decide)⟩

/-- C5: the user message is appended to the conversation store as the very
first step of a chat turn; if the retrieval step or the generation step
fails, the turn aborts with exactly the user message recorded and no
assistant message for that turn. -/
theorem claim5_theorem (pySet : List String → List String)
    (retrieveR : Except PyStr (List Hit))
    (generateR : PyStr → Except PyStr PyStr)
    (st : Store) (sessionId : String) (userMsg : PyStr) (e : PyStr)
    (hfail : retrieveR = Except.error e ∨
      ∃ hits, retrieveR = Except.ok hits ∧
        generateR (buildPrompt userMsg hits
          (getConvHistory (addMessage st sessionId Role.user userMsg)
            sessionId (some 10))) = Except.error e) :
    chatTurn pySet retrieveR generateR st sessionId userMsg =
      (Except.error e, addMessage st sessionId Role.user userMsg) := by
  rcases hfail with h | ⟨hits, hr, hg⟩
  · rw [h]
    rfl
  · rw [hr]
    simp only [chatTurn]
    rw [hg]

/-- C5 witness: the theorem applied at a concrete failing retrieval. -/
theorem claim5_witness :
    ((Except.error ['x'] : Except PyStr (List Hit)) = Except.error ['x'] ∨
      ∃ hits, (Except.error ['x'] : Except PyStr (List Hit)) = Except.ok hits ∧
        (fun p => Except.ok (generateResponse p))
          (buildPrompt ['h'] hits
            (getConvHistory (addMessage [] "s" Role.user ['h']) "s"
              (some 10))) = Except.error ['x']) ∧
      chatTurn dedupFirstSeen (Except.error ['x'])
        (fun p => Except.ok (generateResponse p)) [] "s" ['h'] =
        (Except.error ['x'], addMessage [] "s" Role.user ['h']) :=
  ⟨Or.inl rfl, claim5_theorem dedupFirstSeen (Except.error ['x'])
    (fun p => Except.ok (generateResponse p)) [] "s" ['h'] ['x'] (Or.inl rfl)⟩

theorem dedupFSAux_mem :
    ∀ (xs seen : List String) (d : String),
      d ∈ dedupFirstSeenAux seen xs ↔ (d ∈ xs ∧ d ∉ seen) := by
  intro xs
  induction xs with
  | nil =>
    intro seen d
    simp [dedupFirstSeenAux]
  | cons x rest ih =>
    intro seen d
    rw [dedupFirstSeenAux]
    by_cases hx : x ∈ seen
    · rw [if_pos hx, ih]
      constructor
      · rintro ⟨h1, h2⟩
        exact ⟨List.mem_cons_of_mem x h1, h2⟩
      · rintro ⟨h1, h2⟩
        rcases List.mem_cons.mp h1 with h | h
        · subst h
          exact absurd hx h2
        · exact ⟨h, h2⟩
    · rw [if_neg hx]
      rw [List.mem_cons, ih]
      constructor
      · rintro (h | ⟨h1, h2⟩)
        · subst h
          exact ⟨List.mem_cons_self d rest, hx⟩
        · refine ⟨List.mem_cons_of_mem x h1, ?_⟩
          intro hc
          exact h2 (List.mem_cons_of_mem x hc)
      · rintro ⟨h1, h2⟩
        rcases List.mem_cons.mp h1 with h | h
        · exact Or.inl h
        · by_cases hdx : d = x
          · exact Or.inl hdx
          · refine Or.inr ⟨h, ?_⟩
            intro hc
            rcases List.mem_cons.mp hc with h3 | h3
            · exact hdx h3
            · exact h2 h3

theorem dedupFSAux_nodup :
    ∀ (xs seen : List String), (dedupFirstSeenAux seen xs).Nodup := by
  intro xs
  induction xs with
  | nil =>
    intro seen
    simp [dedupFirstSeenAux]
  | cons x rest ih =>
    intro seen
    rw [dedupFirstSeenAux]
    by_cases hx : x ∈ seen
    · rw [if_pos hx]
      exact ih seen
    · rw [if_neg hx]
      rw [List.nodup_cons]
      refine ⟨?_, ih (x :: seen)⟩
      intro hc
      exact ((dedupFSAux_mem rest (x :: seen) x).mp hc).2
        (List.mem_cons_self x seen)

theorem dedupFirstSeen_ok : PySetOK dedupFirstSeen := by
  intro xs
  refine ⟨dedupFSAux_nodup xs [], ?_⟩
  intro d
  unfold dedupFirstSeen
  rw [dedupFSAux_mem]
  simp

theorem revOrderSet_ok : PySetOK revOrderSet := by
  intro xs
  refine ⟨dedupFSAux_nodup xs.reverse [], ?_⟩
  intro d
  unfold revOrderSet
  rw [dedupFSAux_mem]
  simp

/-- C2 counterexample: the sources of a chat turn are computed by
list(set(...)), whose iteration order is unspecified in Python (string
hashing is seeded per process).  Under the admissible set behaviour
revOrderSet, a turn retrieving hits from documents b then a returns
sources in the order a, b, while the first-seen order among the hits is
b, a: the sources order is therefore not the stable first-seen order the
claim asserts. -/
theorem claim2_counterexample :
    PySetOK revOrderSet ∧
      Except.map Prod.snd
        (chatTurn revOrderSet
          (Except.ok [⟨['x'], "b", 0, (85 : ℚ) / 100⟩,
            ⟨['y'], "a", 0, (85 : ℚ) / 100⟩])
          (fun p => Except.ok (generateResponse p)) [] "s"
          "hello".toList).1 = Except.ok ["a", "b"] ∧
      dedupFirstSeen ["b", "a"] = ["b", "a"] ∧
      (["a", "b"] : List String) ≠ ["b", "a"] :=
  ⟨revOrderSet_ok, by decide, by decide, by decide⟩

/-- C2 (amended): for every chat turn, the returned sources list holds
exactly the document ids of the retrieved hits with duplicates removed,
but in the iteration order of the Python set, which is arbitrary: it is
not guaranteed to be the first-seen order among the hits. -/
theorem claim2_theorem (pySet : List String → List String)
    (hset : PySetOK pySet) (hits : List Hit)
    (generateR : PyStr → Except PyStr PyStr)
    (st : Store) (sessionId : String) (userMsg : PyStr)
    (resp : PyStr) (srcs : List String)
    (hok : (chatTurn pySet (Except.ok hits) generateR st sessionId userMsg).1 =
      Except.ok (resp, srcs)) :
    srcs.Nodup ∧ ∀ d, d ∈ srcs ↔ d ∈ hits.map Hit.document_id := by
  simp only [chatTurn] at hok
  rcases hgen : generateR (buildPrompt userMsg hits
      (getConvHistory (addMessage st sessionId Role.user userMsg) sessionId
        (some 10))) with e | r
  · rw [hgen] at hok
    simp at hok
  · rw [hgen] at hok
    simp only [Except.ok.injEq, Prod.mk.injEq] at hok
    rcases hok with ⟨hr, hs⟩
    rw [← hs]
    exact ⟨(hset (hits.map Hit.document_id)).1,
      fun d => (hset (hits.map Hit.document_id)).2 d⟩

/-- C2 witness: the amended theorem applied at a concrete turn using the
first-seen order as the admissible set behaviour. -/
theorem claim2_witness :
    PySetOK dedupFirstSeen ∧
      ((["a"] : List String).Nodup ∧
        ∀ d, d ∈ (["a"] : List String) ↔
          d ∈ ([⟨[], "a", 0, (85 : ℚ) / 100⟩] : List Hit).map Hit.document_id) :=
  ⟨dedupFirstSeen_ok,
    claim2_theorem dedupFirstSeen dedupFirstSeen_ok
      [⟨[], "a", 0, (85 : ℚ) / 100⟩] (fun _ => Except.ok []) [] "s" ['h']
      [] ["a"] (by decide)⟩

theorem genScan_no_context :
    ∀ (lines : List PyStr) (acc : List PyStr),
      (∀ line ∈ lines, pyStartsWith "[Context".toList line = false) →
      genScan false acc lines = acc := by
  intro lines
  induction lines with
  | nil =>
    intro acc _
    rfl
  | cons l rest ih =>
    intro acc hall
    rw [genScan]
    rw [hall l (List.mem_cons_self l rest)]
    simp only [Bool.false_eq_true, if_false]
    have htail : ∀ line ∈ rest, pyStartsWith "[Context".toList line = false :=
      fun x hx => hall x (List.mem_cons_of_mem l hx)
    by_cases hq : pyStartsWith "Current Question:".toList l
    · rw [if_pos hq]
      exact ih acc htail
    · rw [if_neg hq]
      simp only [Bool.false_and, Bool.false_eq_true, if_false]
      exact ih acc htail

/-- C9 counterexample: a chat turn whose retrieval yields zero hits does
not always return the no-information text: a user message containing a
line that begins with the context marker re-opens the context section when
_generate_response re-parses the prompt, and the turn answers with the
context-echoing response instead. -/
theorem claim9_counterexample :
    Except.map Prod.fst
        (chatTurn dedupFirstSeen (Except.ok [])
          (fun p => Except.ok (generateResponse p)) [] "s"
          "hi\n[Context 1]: sneaky\nmore".toList).1 ≠
        Except.ok noInfoMsg ∧
      pyStartsWith basedOnHead
        (generateResponse
          (buildPrompt "hi\n[Context 1]: sneaky\nmore".toList [] [])) = true := by
  refine ⟨by decide, by decide⟩

/-- C9 (amended): a chat turn whose retrieval yields zero hits always
succeeds (response generation is total, with no error path); it returns
the no-relevant-information text whenever no line of the assembled prompt
begins with the context marker, which holds in particular for user
messages and history free of such lines, but a message injecting such a
line can produce the context-echoing response instead. -/
theorem claim9_theorem (userMsg : PyStr) (hist : List Msg)
    (hno : ∀ line ∈ pySplitNl (buildPrompt userMsg [] hist),
      pyStartsWith "[Context".toList line = false) :
    generateResponse (buildPrompt userMsg [] hist) = noInfoMsg := by
  unfold generateResponse
  rw [genScan_no_context (pySplitNl (buildPrompt userMsg [] hist)) [] hno]
  simp

/-- C9 witness: the amended theorem applied at a concrete benign
message. -/
theorem claim9_witness :
    (∀ line ∈ pySplitNl (buildPrompt "hello".toList [] []),
      pyStartsWith "[Context".toList line = false) ∧
      generateResponse (buildPrompt "hello".toList [] []) = noInfoMsg :=
  ⟨by decide, claim9_theorem "hello".toList [] (by decide)⟩

end DocInj
